import Mathlib

/-!
Shallow embedding of `src/main.cpp` of the all-pairs-edit-distance tool.

Strings are modelled as `List Char` (the program compares `std::string_view`s
by content).  Machine integers (`size_t`, `ssize_t`) are modelled as `Nat`
resp. `Int`; all quantities except the progress-bar total are bounded by the
input size, far below `2^64`, so plain `Nat` arithmetic is faithful there. The
progress-bar total, whose computation can wrap (`n * (n-1)` on `size_t` with
`n = 0`), carries an explicit `% 2^64`.
-/

/-- Embedding of `string_split` (main.cpp:159-176).  The C++ loop scans for
the separator `c`, pushing the (possibly empty) segment before each
occurrence, and finally pushes the segment after the last occurrence only if
it is non-empty (`if (current != from.size())`).  This structural recursion
produces exactly those segments, one character at a time. -/
def string_split (c : Char) : List Char → List (List Char)
  | [] => []
  | x :: xs =>
    if x = c then [] :: string_split c xs
    else
      match string_split c xs with
      | [] => [[x]]
      | t :: ts => (x :: t) :: ts

/-- All separator-delimited segments of a string, including a final empty
segment when the string ends with the separator (`"a|" ↦ ["a", ""]`) and a
single empty segment for the empty string.  This is the plain mathematical
split; `string_split` is compared against it below. -/
def allSegments (c : Char) : List Char → List (List Char)
  | [] => [[]]
  | x :: xs =>
    if x = c then [] :: allSegments c xs
    else
      match allSegments c xs with
      | [] => [[x]]
      | t :: ts => (x :: t) :: ts

/-- The recursive Levenshtein distance on lists.  This is the mathematical
specification the DP table of `slow_edit_distance` is proved against. -/
def lev {α : Type} [DecidableEq α] : List α → List α → Nat
  | [], ys => ys.length
  | _ :: xs, [] => xs.length + 1
  | x :: xs, y :: ys =>
    if x = y then lev xs ys
    else 1 + min (lev xs ys) (min (lev (x :: xs) ys) (lev xs (y :: ys)))
termination_by xs ys => xs.length + ys.length
decreasing_by all_goals (simp only [List.length_cons]; omega)

/-- One row of the DP table of `slow_edit_distance` (main.cpp:146-154): entry
`0` of row `i1` is `i1` (`matrix.at(i, 0) = i`); entry `j+1` is `prev j` when
the compared tokens are equal, and otherwise `1 + min` of the upper-left,
upper, and left neighbours, exactly as in the inner loop. -/
def matrixRowFn (prev : Nat → Nat) (same : Nat → Bool) (i1 : Nat) : Nat → Nat
  | 0 => i1
  | j + 1 =>
    if same j then prev j
    else 1 + min (prev j) (min (prev (j + 1)) (matrixRowFn prev same i1 j))

/-- `matrixAt one two i j` is cell `(i, j)` of the DP table built by
`slow_edit_distance` (main.cpp:140-154): row `0` is `0..len2`
(`matrix.at(0, j) = j`), and row `i+1` is produced from row `i` by
`matrixRowFn`, comparing `one[i]` with `two[j]` for cell `(i+1, j+1)`. -/
def matrixAt {α : Type} [DecidableEq α] [Inhabited α] (one two : List α) :
    Nat → Nat → Nat
  | 0, j => j
  | i + 1, j =>
    matrixRowFn (matrixAt one two i)
      (fun j2 => decide (one.getD i default = two.getD j2 default)) (i + 1) j

/-- The common-suffix-stripping loop of `slow_edit_distance`
(main.cpp:130-133): `while (len1 > 0 && len2 > 0 && one[len1-1] == two[len2-1])
{ len1--; len2--; }`, returning the final `(len1, len2)`. -/
def stripLoop {α : Type} [DecidableEq α] [Inhabited α] (one two : List α) :
    Nat → Nat → Nat × Nat
  | 0, len2 => (0, len2)
  | len1 + 1, 0 => (len1 + 1, 0)
  | len1 + 1, len2 + 1 =>
    if one.getD len1 default = two.getD len2 default then stripLoop one two len1 len2
    else (len1 + 1, len2 + 1)

/-- Embedding of `slow_edit_distance` (main.cpp:123-157): strip the common
suffix, return the other length if either remainder is empty, otherwise the
bottom-right cell of the DP table over the (original) containers with the
reduced lengths. -/
def slow_edit_distance {α : Type} [DecidableEq α] [Inhabited α]
    (one two : List α) : Nat :=
  let p := stripLoop one two one.length two.length
  if p.1 = 0 then p.2
  else if p.2 = 0 then p.1
  else matrixAt one two p.1 p.2

/-- `slow_edit_distance` with the common-suffix-stripping loop
(main.cpp:130-133) removed: the base cases and the DP table act on the full
lengths `len_a`, `len_b`. -/
def plain_edit_distance {α : Type} [DecidableEq α] [Inhabited α]
    (one two : List α) : Nat :=
  if one.length = 0 then two.length
  else if two.length = 0 then one.length
  else matrixAt one two one.length two.length

/-- A single token edit: insertion, deletion, or substitution of one token at
an arbitrary position. -/
inductive EditStep {α : Type} : List α → List α → Prop
  | ins (l r : List α) (x : α) : EditStep (l ++ r) (l ++ x :: r)
  | del (l r : List α) (x : α) : EditStep (l ++ x :: r) (l ++ r)
  | sub (l r : List α) (x y : α) : EditStep (l ++ x :: r) (l ++ y :: r)

/-- `EditSeq n xs zs`: `xs` can be transformed into `zs` by a sequence of
exactly `n` single-token edits. -/
inductive EditSeq {α : Type} : Nat → List α → List α → Prop
  | refl (xs : List α) : EditSeq 0 xs xs
  | step {n : Nat} {xs ys zs : List α} :
      EditStep xs ys → EditSeq n ys zs → EditSeq (n + 1) xs zs

/-- A parsed record (struct `Line`, main.cpp:179-182): identifier plus the
tokenized fields. -/
structure Line where
  id : List Char
  fields : List (List (List Char))
deriving DecidableEq, Inhabited

/-- Turn the tab-chunks of a line into a `Line` (main.cpp:208, 215-216):
chunk 0 is the identifier, chunks 1.. are split on a single space. -/
def parseLine (chunks : List (List Char)) : Line :=
  { id := chunks.getD 0 [], fields := (chunks.drop 1).map (string_split ' ') }

/-- The body of the `load` loop (main.cpp:196-219) over the lines of a
successfully opened file, threading the `ssize_t num_fields` state
(initially `-1`): blank lines are skipped, lines with at most one tab-chunk
are reported and skipped, the first well-formed line fixes `num_fields`, and
later lines with a different chunk count are reported and skipped. -/
def loadLoop : List (List Char) → Int → List Line
  | [], _ => []
  | l :: rest, nf =>
    if l = [] then loadLoop rest nf
    else if (string_split '\t' l).length ≤ 1 then loadLoop rest nf
    else if nf < 0 then
      parseLine (string_split '\t' l) ::
        loadLoop rest (((string_split '\t' l).length : Int) - 1)
    else if ((string_split '\t' l).length : Int) - 1 ≠ nf then loadLoop rest nf
    else parseLine (string_split '\t' l) :: loadLoop rest nf

/-- Embedding of `load` (main.cpp:184-222) for an opened input file, given as
its list of lines. -/
def load (input : List (List Char)) : List Line := loadLoop input (-1)

/-- Decimal rendering of a distance, as `operator<<(ostream, size_t)`
prints it. -/
def natChars (n : Nat) : List Char := (Nat.repr n).toList

/-- The per-field distances computed by `process` (main.cpp:229-232):
`slow_edit_distance` applied to fields `0 .. one.fields.size() - 1` in
order. -/
def processEds (one two : Line) : List Nat :=
  (List.range one.fields.length).map fun f =>
    slow_edit_distance (one.fields.getD f []) (two.fields.getD f [])

/-- The bytes emitted by `process` for one pair (main.cpp:236-239):
`id_one TAB id_two (TAB distance)* NEWLINE`. -/
def process (one two : Line) : List Char :=
  one.id ++ '\t' :: two.id ++
    (((processEds one two).map fun ed => '\t' :: natChars ed).flatten) ++ ['\n']

/-- The iteration space of the nested loops of `run` (main.cpp:253-257):
outer `i` over `0 ..< n`, inner `j` over `i+1 ..< n`. -/
def runPairs (n : Nat) : List (Nat × Nat) :=
  (List.range n).flatMap fun i => (List.range' (i + 1) (n - (i + 1))).map fun j => (i, j)

/-- The bytes `run` (main.cpp:244-258) writes to the output file: one
`process` line per enumerated pair. -/
def run (input : List (List Char)) : List Char :=
  let lines := load input
  (((runPairs lines.length).map fun p =>
    process (lines.getD p.1 default) (lines.getD p.2 default)).flatten)

/-- The total handed to the progress bar (main.cpp:250):
`lines.size() * (lines.size() - 1) / 2` in `size_t` arithmetic, so the
subtraction and the product wrap modulo `2^64`. -/
def progTotal (n : Nat) : Nat :=
  n * ((n + (2 ^ 64 - 1)) % 2 ^ 64) % 2 ^ 64 / 2

/-- The argument handling of `main` (main.cpp:268-287): result is
(exit status, whether usage text was printed).  `argc < 3` prints usage and
returns `EXIT_FAILURE` (main.cpp:272-275) before the `--help` and
`--version` checks; otherwise those checks return `EXIT_SUCCESS`, and the
normal path runs to completion and returns `EXIT_SUCCESS`. -/
def mainSim (argv : List String) : Nat × Bool :=
  if argv.length < 3 then (1, true)
  else if argv.getD 1 "" = "--help" ∨ argv.getD 2 "" = "--help" then (0, true)
  else if argv.getD 1 "" = "--version" ∨ argv.getD 2 "" = "--version" then (0, false)
  else (0, false)

/-- State of the `std::ifstream` read by `load`: its fail/eof bits and the
lines not yet consumed.  A stream whose open failed starts with
`failbit = true` and `eofbit = false`. -/
structure IStream where
  failbit : Bool
  eofbit : Bool
  rest : List (List Char)
deriving DecidableEq

/-- `std::getline(fp, line)`: if the sentry fails (fail or eof bit already
set) the buffer is left untouched and `failbit` is set; at end of input
`eofbit` and `failbit` are set and the buffer is cleared; otherwise the next
line is extracted. -/
def getline (st : IStream) (buf : List Char) : IStream × List Char :=
  if st.failbit || st.eofbit then ({ st with failbit := true }, buf)
  else
    match st.rest with
    | [] => ({ st with eofbit := true, failbit := true }, [])
    | l :: ls => ({ st with rest := ls }, l)

/-- The `while (!fp.eof())` loop of `load` (main.cpp:196-219) over an
explicit stream state, with fuel: `none` means the loop has not terminated
within `fuel` iterations. -/
def loadStream : Nat → IStream → List Char → Int → Option (List Line)
  | 0, _, _, _ => none
  | fuel + 1, st, buf, nf =>
    if st.eofbit then some []
    else if (getline st buf).2 = [] then
      loadStream fuel (getline st buf).1 (getline st buf).2 nf
    else if (string_split '\t' (getline st buf).2).length ≤ 1 then
      loadStream fuel (getline st buf).1 (getline st buf).2 nf
    else if nf < 0 then
      (loadStream fuel (getline st buf).1 (getline st buf).2
          (((string_split '\t' (getline st buf).2).length : Int) - 1)).map
        (parseLine (string_split '\t' (getline st buf).2) :: ·)
    else if ((string_split '\t' (getline st buf).2).length : Int) - 1 ≠ nf then
      loadStream fuel (getline st buf).1 (getline st buf).2 nf
    else
      (loadStream fuel (getline st buf).1 (getline st buf).2 nf).map
        (parseLine (string_split '\t' (getline st buf).2) :: ·)

/-- Index of the chunk count fixed by the first well-formed line: `some k`
when the first line with at least two tab-chunks has `k + 1` chunks. -/
def firstGoodCount : List (List Char) → Option Nat
  | [] => none
  | l :: rest =>
    if l = [] then firstGoodCount rest
    else if (string_split '\t' l).length ≤ 1 then firstGoodCount rest
    else some ((string_split '\t' l).length - 1)

/-- Whether a line survives `load` once the field count `k` is fixed: at
least two tab-chunks and exactly `k` fields. -/
def keptLine (k : Nat) (l : List Char) : Bool :=
  decide (1 < (string_split '\t' l).length) &&
    decide ((string_split '\t' l).length - 1 = k)

theorem allSegments_ne_nil (c : Char) (s : List Char) : allSegments c s ≠ [] := by
  induction s with
  | nil => simp [allSegments]
  | cons x xs ih =>
    simp only [allSegments]
    split
    · simp
    · rcases h : allSegments c xs with _ | ⟨t, ts⟩
      · simp
      · simp

/-- `string_split` drops the final segment of `allSegments` exactly when that
segment is empty. -/
theorem string_split_eq_dropTrailingEmpty (c : Char) (s : List Char) :
    string_split c s =
      (if (allSegments c s).getLast? = some [] then (allSegments c s).dropLast
       else allSegments c s) := by
  induction s with
  | nil => simp [string_split, allSegments]
  | cons x xs ih =>
    by_cases hx : x = c
    · simp only [string_split, allSegments, if_pos hx]
      have hne := allSegments_ne_nil c xs
      rcases h : allSegments c xs with _ | ⟨t, ts⟩
      · exact absurd h hne
      · rw [h] at ih
        by_cases hlast : (t :: ts).getLast? = some ([] : List Char)
        · rw [if_pos hlast] at ih
          have : ([] :: t :: ts).getLast? = some ([] : List Char) := by
            simpa [List.getLast?_cons_cons] using hlast
          rw [if_pos this, ih]
          simp [List.dropLast]
        · rw [if_neg hlast] at ih
          have : ¬ (([] :: t :: ts).getLast? = some ([] : List Char)) := by
            simpa [List.getLast?_cons_cons] using hlast
          rw [if_neg this, ih]
    · simp only [string_split, allSegments, if_neg hx]
      have hne := allSegments_ne_nil c xs
      rcases h : allSegments c xs with _ | ⟨t, ts⟩
      · exact absurd h hne
      · rw [h] at ih
        rcases hs : string_split c xs with _ | ⟨u, us⟩
        · -- split is empty: allSegments last must be empty and dropLast empty
          rw [hs] at ih
          by_cases hlast : (t :: ts).getLast? = some ([] : List Char)
          · rw [if_pos hlast] at ih
            -- t :: ts has dropLast = [], so ts = [] and t = []
            rcases ts with _ | ⟨t2, ts2⟩
            · have ht : t = [] := by simpa using hlast
              subst ht
              simp [List.getLast?]
            · simp [List.dropLast] at ih
          · rw [if_neg hlast] at ih
            exact absurd ih.symm (by simp)
        · rw [hs] at ih
          by_cases hlast : (t :: ts).getLast? = some ([] : List Char)
          · rw [if_pos hlast] at ih
            have hlast' : ((x :: t) :: ts).getLast? = some ([] : List Char) := by
              rcases ts with _ | ⟨t2, ts2⟩
              · have : t = [] := by simpa using hlast
                subst this
                simp at ih
              · simpa [List.getLast?_cons_cons] using hlast
            rw [if_pos hlast']
            rcases ts with _ | ⟨t2, ts2⟩
            · have : t = [] := by simpa using hlast
              subst this
              simp at ih
            · simp only [List.dropLast] at ih ⊢
              injection ih with h1 h2
              simp [h1, h2]
          · rw [if_neg hlast] at ih
            have hlast' : ¬ (((x :: t) :: ts).getLast? = some ([] : List Char)) := by
              rcases ts with _ | ⟨t2, ts2⟩
              · simp
              · simpa [List.getLast?_cons_cons] using hlast
            rw [if_neg hlast']
            injection ih with h1 h2
            simp [h1, h2]

theorem lev_nil_left {α : Type} [DecidableEq α] (ys : List α) :
    lev ([] : List α) ys = ys.length := by
  simp [lev]

theorem lev_cons_nil {α : Type} [DecidableEq α] (x : α) (xs : List α) :
    lev (x :: xs) [] = xs.length + 1 := by
  simp [lev]

theorem lev_nil_right {α : Type} [DecidableEq α] (xs : List α) :
    lev xs [] = xs.length := by
  cases xs <;> simp [lev]

theorem lev_cons_cons {α : Type} [DecidableEq α] (x y : α) (xs ys : List α) :
    lev (x :: xs) (y :: ys) =
      if x = y then lev xs ys
      else 1 + min (lev xs ys) (min (lev (x :: xs) ys) (lev xs (y :: ys))) := by
  simp [lev]

theorem lev_self {α : Type} [DecidableEq α] (xs : List α) : lev xs xs = 0 := by
  induction xs with
  | nil => simp [lev_nil_left]
  | cons x xs ih => simp [lev_cons_cons, ih]

theorem lev_symm {α : Type} [DecidableEq α] (xs ys : List α) :
    lev xs ys = lev ys xs := by
  have H : ∀ s : Nat, ∀ xs ys : List α, xs.length + ys.length ≤ s →
      lev xs ys = lev ys xs := by
    intro s
    induction s with
    | zero =>
      intro xs ys h
      cases xs with
      | nil =>
        cases ys with
        | nil => rfl
        | cons y ys => simp at h
      | cons x xs => simp at h
    | succ s ih =>
      intro xs ys h
      cases xs with
      | nil => simp [lev_nil_left, lev_nil_right]
      | cons x xs =>
        cases ys with
        | nil => simp [lev_nil_left, lev_nil_right]
        | cons y ys =>
          simp only [List.length_cons] at h
          rw [lev_cons_cons, lev_cons_cons]
          by_cases hxy : x = y
          · subst hxy
            rw [if_pos rfl, if_pos rfl]
            exact ih xs ys (by omega)
          · rw [if_neg hxy, if_neg (fun hc => hxy hc.symm)]
            have h1 := ih xs ys (by omega)
            have h2 := ih (x :: xs) ys (by simp only [List.length_cons]; omega)
            have h3 := ih xs (y :: ys) (by simp only [List.length_cons]; omega)
            omega
  exact H (xs.length + ys.length) xs ys le_rfl

/-- Adding or removing a head token on the left changes `lev` by at most 1. -/
theorem lev_head_bounds {α : Type} [DecidableEq α] :
    ∀ (s : Nat) (xs ys : List α), xs.length + ys.length ≤ s →
      (∀ a : α, lev (a :: xs) ys ≤ lev xs ys + 1) ∧
      (∀ a : α, lev xs ys ≤ lev (a :: xs) ys + 1) := by
  intro s
  induction s with
  | zero =>
    intro xs ys h
    have hx : xs = [] := by cases xs <;> simp_all
    have hy : ys = [] := by cases ys <;> simp_all
    subst hx; subst hy
    constructor
    · intro a; simp [lev_nil_left, lev_cons_nil]
    · intro a; simp [lev_nil_left, lev_cons_nil]
  | succ s ih =>
    intro xs ys h
    constructor
    · -- lev (a :: xs) ys ≤ lev xs ys + 1
      intro a
      cases ys with
      | nil => simp [lev_cons_nil, lev_nil_right]
      | cons y ys =>
        simp only [List.length_cons] at h
        rw [lev_cons_cons]
        by_cases hay : a = y
        · rw [if_pos hay]
          -- need lev xs ys ≤ lev xs (y :: ys) + 1
          have hD : lev ys xs ≤ lev (y :: ys) xs + 1 :=
            (ih ys xs (by omega)).2 y
          rw [lev_symm ys xs, lev_symm (y :: ys) xs] at hD
          exact hD
        · rw [if_neg hay]
          have : min (lev xs ys) (min (lev (a :: xs) ys) (lev xs (y :: ys))) ≤
              lev xs (y :: ys) := by omega
          omega
    · -- lev xs ys ≤ lev (a :: xs) ys + 1
      intro a
      cases ys with
      | nil => simp [lev_cons_nil, lev_nil_right]; omega
      | cons y ys =>
        simp only [List.length_cons] at h
        rw [lev_cons_cons]
        have hC : lev xs (y :: ys) ≤ lev xs ys + 1 := by
          have := (ih ys xs (by omega)).1 y
          rw [lev_symm (y :: ys) xs, lev_symm ys xs] at this
          exact this
        by_cases hay : a = y
        · rw [if_pos hay]
          exact hC
        · rw [if_neg hay]
          have hB : lev xs ys ≤ lev (a :: xs) ys + 1 :=
            (ih xs ys (by omega)).2 a
          omega

theorem lev_cons_left_le {α : Type} [DecidableEq α] (a : α) (xs ys : List α) :
    lev (a :: xs) ys ≤ lev xs ys + 1 :=
  (lev_head_bounds (xs.length + ys.length) xs ys le_rfl).1 a

theorem le_lev_cons_left {α : Type} [DecidableEq α] (a : α) (xs ys : List α) :
    lev xs ys ≤ lev (a :: xs) ys + 1 :=
  (lev_head_bounds (xs.length + ys.length) xs ys le_rfl).2 a

theorem lev_cons_right_le {α : Type} [DecidableEq α] (b : α) (xs ys : List α) :
    lev xs (b :: ys) ≤ lev xs ys + 1 := by
  rw [lev_symm xs (b :: ys), lev_symm xs ys]
  exact lev_cons_left_le b ys xs

theorem le_lev_cons_right {α : Type} [DecidableEq α] (b : α) (xs ys : List α) :
    lev xs ys ≤ lev xs (b :: ys) + 1 := by
  rw [lev_symm xs ys, lev_symm xs (b :: ys)]
  exact le_lev_cons_left b ys xs

/-- Substituting the head token changes `lev` by at most 1. -/
theorem lev_sub_head {α : Type} [DecidableEq α] (x y : α) (r : List α) :
    ∀ B : List α, lev (x :: r) B ≤ lev (y :: r) B + 1 := by
  intro B
  induction B with
  | nil => simp [lev_cons_nil]
  | cons b B ihB =>
    rw [lev_cons_cons x b, lev_cons_cons y b]
    have ha := le_lev_cons_left y r B
    have hb := le_lev_cons_right b r B
    split_ifs <;> omega

/-- `lev` ignores a common prefix. -/
theorem lev_append_left {α : Type} [DecidableEq α] (p xs ys : List α) :
    lev (p ++ xs) (p ++ ys) = lev xs ys := by
  induction p with
  | nil => rfl
  | cons a p ih =>
    rw [List.cons_append, List.cons_append, lev_cons_cons, if_pos rfl]
    exact ih

/-- Inserting one token anywhere in the left argument raises `lev` by at
most 1. -/
theorem lev_insert_le {α : Type} [DecidableEq α] :
    ∀ (s : Nat) (l B r : List α) (x : α), l.length + B.length ≤ s →
      lev (l ++ x :: r) B ≤ lev (l ++ r) B + 1 := by
  intro s
  induction s with
  | zero =>
    intro l B r x h
    have hl : l = [] := by cases l <;> simp_all
    have hB : B = [] := by cases B <;> simp_all
    subst hl; subst hB
    simp [lev_cons_nil, lev_nil_right]
  | succ s ih =>
    intro l B r x h
    cases l with
    | nil => simpa using lev_cons_left_le x r B
    | cons a l =>
      cases B with
      | nil =>
        simp only [lev_nil_right, List.length_append, List.length_cons]
        omega
      | cons b B =>
        simp only [List.length_cons] at h
        rw [List.cons_append, List.cons_append, lev_cons_cons a b, lev_cons_cons a b]
        have h1 : lev (l ++ x :: r) B ≤ lev (l ++ r) B + 1 :=
          ih l B r x (by omega)
        have h2 : lev (a :: (l ++ x :: r)) B ≤ lev (a :: (l ++ r)) B + 1 := by
          have := ih (a :: l) B r x (by simp only [List.length_cons]; omega)
          simpa [List.cons_append] using this
        have h3 : lev (l ++ x :: r) (b :: B) ≤ lev (l ++ r) (b :: B) + 1 :=
          ih l (b :: B) r x (by simp only [List.length_cons]; omega)
        split_ifs <;> omega

/-- Deleting one token anywhere from the left argument raises `lev` by at
most 1. -/
theorem lev_delete_le {α : Type} [DecidableEq α] :
    ∀ (s : Nat) (l B r : List α) (x : α), l.length + B.length ≤ s →
      lev (l ++ r) B ≤ lev (l ++ x :: r) B + 1 := by
  intro s
  induction s with
  | zero =>
    intro l B r x h
    have hl : l = [] := by cases l <;> simp_all
    have hB : B = [] := by cases B <;> simp_all
    subst hl; subst hB
    simp only [List.nil_append, lev_cons_nil, lev_nil_right, List.length_cons]
    omega
  | succ s ih =>
    intro l B r x h
    cases l with
    | nil => simpa using le_lev_cons_left x r B
    | cons a l =>
      cases B with
      | nil =>
        simp only [lev_nil_right, List.length_append, List.length_cons]
        omega
      | cons b B =>
        simp only [List.length_cons] at h
        rw [List.cons_append, List.cons_append, lev_cons_cons a b, lev_cons_cons a b]
        have h1 : lev (l ++ r) B ≤ lev (l ++ x :: r) B + 1 :=
          ih l B r x (by omega)
        have h2 : lev (a :: (l ++ r)) B ≤ lev (a :: (l ++ x :: r)) B + 1 := by
          have := ih (a :: l) B r x (by simp only [List.length_cons]; omega)
          simpa [List.cons_append] using this
        have h3 : lev (l ++ r) (b :: B) ≤ lev (l ++ x :: r) (b :: B) + 1 :=
          ih l (b :: B) r x (by simp only [List.length_cons]; omega)
        split_ifs <;> omega

/-- Substituting one token anywhere in the left argument changes `lev` by at
most 1. -/
theorem lev_substitute_le {α : Type} [DecidableEq α] :
    ∀ (s : Nat) (l B r : List α) (x y : α), l.length + B.length ≤ s →
      lev (l ++ x :: r) B ≤ lev (l ++ y :: r) B + 1 := by
  intro s
  induction s with
  | zero =>
    intro l B r x y h
    have hl : l = [] := by cases l <;> simp_all
    have hB : B = [] := by cases B <;> simp_all
    subst hl; subst hB
    simp [lev_cons_nil]
  | succ s ih =>
    intro l B r x y h
    cases l with
    | nil => simpa using lev_sub_head x y r B
    | cons a l =>
      cases B with
      | nil =>
        simp only [lev_nil_right, List.length_append, List.length_cons]
        omega
      | cons b B =>
        simp only [List.length_cons] at h
        rw [List.cons_append, List.cons_append, lev_cons_cons a b, lev_cons_cons a b]
        have h1 : lev (l ++ x :: r) B ≤ lev (l ++ y :: r) B + 1 :=
          ih l B r x y (by omega)
        have h2 : lev (a :: (l ++ x :: r)) B ≤ lev (a :: (l ++ y :: r)) B + 1 := by
          have := ih (a :: l) B r x y (by simp only [List.length_cons]; omega)
          simpa [List.cons_append] using this
        have h3 : lev (l ++ x :: r) (b :: B) ≤ lev (l ++ y :: r) (b :: B) + 1 :=
          ih l (b :: B) r x y (by simp only [List.length_cons]; omega)
        split_ifs <;> omega

/-- One edit on the left argument changes `lev` to any fixed `B` by at
most 1. -/
theorem editStep_lev_le {α : Type} [DecidableEq α] {A A' : List α}
    (h : EditStep A A') (B : List α) : lev A B ≤ lev A' B + 1 := by
  cases h with
  | ins l r x => exact lev_delete_le (l.length + B.length) l B r x le_rfl
  | del l r x => exact lev_insert_le (l.length + B.length) l B r x le_rfl
  | sub l r x y => exact lev_substitute_le (l.length + B.length) l B r x y le_rfl

/-- `lev` is a lower bound on the length of any edit sequence. -/
theorem editSeq_lev_le {α : Type} [DecidableEq α] {n : Nat} {A B : List α}
    (h : EditSeq n A B) : lev A B ≤ n := by
  induction h with
  | refl xs => simp [lev_self]
  | step hs _ ih =>
    rename_i m xs ys zs hseq
    have := editStep_lev_le hs zs
    omega

theorem editStep_cons {α : Type} {a : α} {u v : List α} (h : EditStep u v) :
    EditStep (a :: u) (a :: v) := by
  cases h with
  | ins l r x => exact EditStep.ins (a :: l) r x
  | del l r x => exact EditStep.del (a :: l) r x
  | sub l r x y => exact EditStep.sub (a :: l) r x y

theorem editSeq_cons {α : Type} {n : Nat} {u v : List α} (a : α)
    (h : EditSeq n u v) : EditSeq n (a :: u) (a :: v) := by
  induction h with
  | refl xs => exact EditSeq.refl (a :: xs)
  | step hs _ ih => exact EditSeq.step (editStep_cons hs) ih

theorem editSeq_snoc {α : Type} {n : Nat} {A B C : List α}
    (h : EditSeq n A B) (hs : EditStep B C) : EditSeq (n + 1) A C := by
  induction h with
  | refl xs => exact EditSeq.step hs (EditSeq.refl C)
  | step hstep _ ih => exact EditSeq.step hstep (ih hs)

theorem editSeq_nil_to {α : Type} (ys : List α) : EditSeq ys.length [] ys := by
  induction ys with
  | nil => exact EditSeq.refl []
  | cons y ys ih =>
    have h0 : EditStep ([] : List α) [y] := EditStep.ins [] [] y
    exact EditSeq.step h0 (editSeq_cons y ih)

theorem editSeq_to_nil {α : Type} (xs : List α) : EditSeq xs.length xs [] := by
  induction xs with
  | nil => exact EditSeq.refl []
  | cons x xs ih =>
    have h0 : EditStep (x :: xs) xs := EditStep.del [] xs x
    exact EditSeq.step h0 ih

/-- There is an edit sequence of length exactly `lev A B`. -/
theorem editSeq_lev {α : Type} [DecidableEq α] (A B : List α) :
    EditSeq (lev A B) A B := by
  have H : ∀ s : Nat, ∀ A B : List α, A.length + B.length ≤ s →
      EditSeq (lev A B) A B := by
    intro s
    induction s with
    | zero =>
      intro A B h
      have hA : A = [] := by cases A <;> simp_all
      have hB : B = [] := by cases B <;> simp_all
      subst hA; subst hB
      simpa [lev_self] using EditSeq.refl ([] : List α)
    | succ s ih =>
      intro A B h
      cases A with
      | nil => simpa [lev_nil_left] using editSeq_nil_to B
      | cons x xs =>
        cases B with
        | nil => simpa [lev_cons_nil] using editSeq_to_nil (x :: xs)
        | cons y ys =>
          simp only [List.length_cons] at h
          rw [lev_cons_cons]
          by_cases hxy : x = y
          · subst hxy
            rw [if_pos rfl]
            exact editSeq_cons x (ih xs ys (by omega))
          · rw [if_neg hxy]
            set d1 := lev xs ys with hd1
            set d2 := lev (x :: xs) ys with hd2
            set d3 := lev xs (y :: ys) with hd3
            have hm : min d1 (min d2 d3) = d1 ∨ min d1 (min d2 d3) = d2 ∨
                min d1 (min d2 d3) = d3 := by omega
            rcases hm with hm | hm | hm
            · rw [hm, Nat.add_comm]
              have h0 : EditStep (x :: xs) (y :: xs) := EditStep.sub [] xs x y
              exact EditSeq.step h0 (editSeq_cons y (ih xs ys (by omega)))
            · rw [hm, Nat.add_comm]
              have h0 : EditStep ys (y :: ys) := EditStep.ins [] ys y
              exact editSeq_snoc (ih (x :: xs) ys (by simp only [List.length_cons]; omega)) h0
            · rw [hm, Nat.add_comm]
              have h0 : EditStep (x :: xs) xs := EditStep.del [] xs x
              exact EditSeq.step h0 (ih xs (y :: ys) (by simp only [List.length_cons]; omega))
  exact H (A.length + B.length) A B le_rfl

theorem editStep_reverse {α : Type} {u v : List α} (h : EditStep u v) :
    EditStep u.reverse v.reverse := by
  cases h with
  | ins l r x =>
    have := EditStep.ins r.reverse l.reverse x
    simpa [List.reverse_append, List.append_assoc] using this
  | del l r x =>
    have := EditStep.del r.reverse l.reverse x
    simpa [List.reverse_append, List.append_assoc] using this
  | sub l r x y =>
    have := EditStep.sub r.reverse l.reverse x y
    simpa [List.reverse_append, List.append_assoc] using this

theorem editSeq_reverse {α : Type} {n : Nat} {u v : List α}
    (h : EditSeq n u v) : EditSeq n u.reverse v.reverse := by
  induction h with
  | refl xs => exact EditSeq.refl xs.reverse
  | step hs _ ih => exact EditSeq.step (editStep_reverse hs) ih

/-- `lev` is invariant under reversing both arguments. -/
theorem lev_reverse {α : Type} [DecidableEq α] (A B : List α) :
    lev A.reverse B.reverse = lev A B := by
  apply Nat.le_antisymm
  · exact editSeq_lev_le (editSeq_reverse (editSeq_lev A B))
  · have := editSeq_lev_le (editSeq_reverse (editSeq_lev A.reverse B.reverse))
    simpa using this

theorem take_succ_reverse {α : Type} [Inhabited α] (l : List α) (i : Nat)
    (h : i < l.length) :
    (l.take (i + 1)).reverse = l.getD i default :: (l.take i).reverse := by
  rw [List.take_succ, List.getElem?_eq_getElem h, List.getD_eq_getElem _ default h]
  simp

/-- The DP table cell `(i, j)` is the Levenshtein distance between the
reversed `i`-prefix of `one` and the reversed `j`-prefix of `two`. -/
theorem matrixAt_eq_lev {α : Type} [DecidableEq α] [Inhabited α]
    (one two : List α) :
    ∀ (i j : Nat), i ≤ one.length → j ≤ two.length →
      matrixAt one two i j = lev (one.take i).reverse (two.take j).reverse := by
  intro i
  induction i with
  | zero =>
    intro j _ hj
    simp only [matrixAt, List.take_zero, List.reverse_nil, lev_nil_left,
      List.length_reverse, List.length_take]
    omega
  | succ i ihi =>
    intro j
    induction j with
    | zero =>
      intro hi _
      simp only [matrixAt, matrixRowFn, List.take_zero, List.reverse_nil,
        lev_nil_right, List.length_reverse, List.length_take]
      omega
    | succ j ihj =>
      intro hi hj
      have hi' : i < one.length := by omega
      have hj' : j < two.length := by omega
      have e1 := take_succ_reverse one i hi'
      have e2 := take_succ_reverse two j hj'
      have hA := ihi j (by omega) (by omega)
      have hB := ihi (j + 1) (by omega) hj
      rw [e2] at hB
      have hC := ihj hi (by omega)
      rw [e1] at hC
      rw [e1, e2, lev_cons_cons]
      show matrixRowFn (matrixAt one two i)
          (fun j2 => decide (one.getD i default = two.getD j2 default)) (i + 1) (j + 1) = _
      rw [matrixRowFn]
      simp only [decide_eq_true_eq]
      have hCr : matrixRowFn (matrixAt one two i)
          (fun j2 => decide (one.getD i default = two.getD j2 default)) (i + 1) j =
          lev (one.getD i default :: (one.take i).reverse) (two.take j).reverse := hC
      by_cases hab : one.getD i default = two.getD j default
      · rw [if_pos hab, if_pos hab, hA]
      · rw [if_neg hab, if_neg hab, hA, hB, hCr]
        omega

theorem stripLoop_le {α : Type} [DecidableEq α] [Inhabited α] (one two : List α) :
    ∀ len1 len2, (stripLoop one two len1 len2).1 ≤ len1 ∧
      (stripLoop one two len1 len2).2 ≤ len2 := by
  intro len1
  induction len1 with
  | zero => intro len2; simp [stripLoop]
  | succ len1 ih =>
    intro len2
    cases len2 with
    | zero => simp [stripLoop]
    | succ len2 =>
      simp only [stripLoop]
      by_cases h : one.getD len1 default = two.getD len2 default
      · rw [if_pos h]
        have := ih len2
        omega
      · rw [if_neg h]
        exact ⟨le_rfl, le_rfl⟩

/-- The stripping loop does not change the Levenshtein distance of the
reversed prefixes it operates on. -/
theorem stripLoop_lev {α : Type} [DecidableEq α] [Inhabited α] (one two : List α) :
    ∀ len1 len2, len1 ≤ one.length → len2 ≤ two.length →
      lev (one.take (stripLoop one two len1 len2).1).reverse
          (two.take (stripLoop one two len1 len2).2).reverse =
        lev (one.take len1).reverse (two.take len2).reverse := by
  intro len1
  induction len1 with
  | zero => intro len2 _ _; simp [stripLoop]
  | succ len1 ih =>
    intro len2 h1 h2
    cases len2 with
    | zero => simp [stripLoop]
    | succ len2 =>
      simp only [stripLoop]
      by_cases h : one.getD len1 default = two.getD len2 default
      · rw [if_pos h]
        rw [ih len2 (by omega) (by omega)]
        rw [take_succ_reverse one len1 (by omega), take_succ_reverse two len2 (by omega)]
        rw [lev_cons_cons, if_pos h]
      · rw [if_neg h]

theorem slow_edit_distance_eq_lev {α : Type} [DecidableEq α] [Inhabited α]
    (one two : List α) : slow_edit_distance one two = lev one two := by
  have hle := stripLoop_le one two one.length two.length
  have hkey := stripLoop_lev one two one.length two.length le_rfl le_rfl
  rw [List.take_length, List.take_length, lev_reverse one two] at hkey
  show (if (stripLoop one two one.length two.length).1 = 0
        then (stripLoop one two one.length two.length).2
        else if (stripLoop one two one.length two.length).2 = 0
        then (stripLoop one two one.length two.length).1
        else matrixAt one two (stripLoop one two one.length two.length).1
               (stripLoop one two one.length two.length).2) = lev one two
  set p := stripLoop one two one.length two.length with hp
  by_cases h1 : p.1 = 0
  · rw [if_pos h1]
    rw [h1] at hkey
    simp only [List.take_zero, List.reverse_nil, lev_nil_left, List.length_reverse,
      List.length_take] at hkey
    omega
  · rw [if_neg h1]
    by_cases h2 : p.2 = 0
    · rw [if_pos h2]
      rw [h2] at hkey
      simp only [List.take_zero, List.reverse_nil, lev_nil_right, List.length_reverse,
        List.length_take] at hkey
      omega
    · rw [if_neg h2]
      rw [matrixAt_eq_lev one two p.1 p.2 hle.1 hle.2]
      exact hkey

theorem plain_edit_distance_eq_lev {α : Type} [DecidableEq α] [Inhabited α]
    (one two : List α) : plain_edit_distance one two = lev one two := by
  unfold plain_edit_distance
  by_cases h1 : one.length = 0
  · rw [if_pos h1]
    have h : one = [] := List.length_eq_zero.mp h1
    subst h
    rw [lev_nil_left]
  · rw [if_neg h1]
    by_cases h2 : two.length = 0
    · rw [if_pos h2]
      have h : two = [] := List.length_eq_zero.mp h2
      subst h
      rw [lev_nil_right]
    · rw [if_neg h2, matrixAt_eq_lev one two _ _ le_rfl le_rfl,
        List.take_length, List.take_length, lev_reverse]

theorem runPairs_length (n : Nat) : (runPairs n).length = n * (n - 1) / 2 := by
  unfold runPairs
  rw [List.length_flatMap]
  have hbr : ∀ (f : Nat → Nat), ((List.range n).map f).sum = ∑ i in Finset.range n, f i := by
    intro f
    induction n with
    | zero => simp
    | succ m ih => rw [List.range_succ, Finset.sum_range_succ]; simp [ih]
  calc ((List.range n).map fun i =>
          (((List.range' (i + 1) (n - (i + 1))).map fun j => (i, j)).length)).sum
      = ((List.range n).map fun i => n - (i + 1)).sum := by
        simp [List.length_map, List.length_range']
    _ = ∑ i in Finset.range n, (n - (i + 1)) := hbr _
    _ = ∑ i in Finset.range n, (n - 1 - i) := by
        apply Finset.sum_congr rfl; intro i hi; omega
    _ = ∑ i in Finset.range n, i := Finset.sum_range_reflect (fun i => i) n
    _ = n * (n - 1) / 2 := Finset.sum_range_id n

theorem runPairs_mem (n : Nat) (p : Nat × Nat) :
    p ∈ runPairs n ↔ p.1 < p.2 ∧ p.2 < n := by
  unfold runPairs
  simp only [List.mem_flatMap, List.mem_map, List.mem_range, List.mem_range'_1]
  constructor
  · rintro ⟨i, hi, j, hj, rfl⟩
    simp only []
    omega
  · rintro ⟨h1, h2⟩
    exact ⟨p.1, by omega, p.2, by omega, rfl⟩

theorem runPairs_nodup (n : Nat) : (runPairs n).Nodup := by
  unfold runPairs
  rw [List.nodup_flatMap]
  constructor
  · intro i _
    apply List.Nodup.map
    · intro a b hab
      simpa using hab
    · exact List.nodup_range' _ _
  · apply List.Pairwise.imp ?_ (List.pairwise_lt_range n)
    intro i j hij a ha hb
    simp only [Function.comp, List.mem_map, List.mem_range'_1] at ha hb
    obtain ⟨u, _, rfl⟩ := ha
    obtain ⟨v, _, hvv⟩ := hb
    have : i = j := by
      have := congrArg Prod.fst hvv
      simpa using this.symm
    omega

theorem processEds_zipWith (one two : Line)
    (h : one.fields.length = two.fields.length) :
    processEds one two =
      List.zipWith slow_edit_distance one.fields two.fields := by
  apply List.ext_getElem
  · simp [processEds, List.length_zipWith, h]
  · intro i h1 h2
    simp only [processEds, List.getElem_map, List.getElem_range, List.getElem_zipWith]
    have hi1 : i < one.fields.length := by
      simp [processEds] at h1; omega
    have hi2 : i < two.fields.length := by omega
    rw [List.getD_eq_getElem _ _ hi1, List.getD_eq_getElem _ _ hi2]

theorem keptLine_nil (k : Nat) : keptLine k [] = false := by
  simp [keptLine, string_split]

/-- Once `num_fields` is fixed at `k ≥ 0`, the loader keeps exactly the lines
with at least two chunks and `k` fields. -/
theorem loadLoop_nonneg (k : Nat) :
    ∀ input : List (List Char), loadLoop input (k : Int) =
      (input.filter (keptLine k)).map fun l => parseLine (string_split '\t' l) := by
  intro input
  induction input with
  | nil => rfl
  | cons l rest ih =>
    simp only [loadLoop]
    by_cases hbl : l = []
    · subst hbl
      rw [if_pos rfl, ih]
      simp [List.filter_cons, keptLine_nil]
    · rw [if_neg hbl]
      by_cases hc : (string_split '\t' l).length ≤ 1
      · rw [if_pos hc, ih]
        have hk : keptLine k l = false := by
          simp only [keptLine, Bool.and_eq_false_iff, decide_eq_false_iff_not]
          left
          omega
        simp [List.filter_cons, hk]
      · rw [if_neg hc]
        have hneg : ¬ ((k : Int) < 0) := by omega
        rw [if_neg hneg]
        by_cases he : (string_split '\t' l).length - 1 = k
        · have hInt : ¬ (((string_split '\t' l).length : Int) - 1 ≠ (k : Int)) := by
            omega
          rw [if_neg hInt, ih]
          have hk : keptLine k l = true := by
            simp only [keptLine, Bool.and_eq_true, decide_eq_true_eq]
            omega
          simp [List.filter_cons, hk]
        · have hInt : ((string_split '\t' l).length : Int) - 1 ≠ (k : Int) := by
            omega
          rw [if_pos hInt, ih]
          have hk : keptLine k l = false := by
            simp only [keptLine, Bool.and_eq_false_iff, decide_eq_false_iff_not]
            right
            omega
          simp [List.filter_cons, hk]

/-- `load` keeps exactly the lines matching the field count fixed by the
first well-formed line. -/
theorem load_eq_filter_map (input : List (List Char)) (k : Nat)
    (h : firstGoodCount input = some k) :
    load input =
      (input.filter (keptLine k)).map fun l => parseLine (string_split '\t' l) := by
  unfold load
  induction input with
  | nil => simp [firstGoodCount] at h
  | cons l rest ih =>
    simp only [loadLoop]
    by_cases hbl : l = []
    · subst hbl
      rw [if_pos rfl]
      simp only [firstGoodCount, if_pos rfl] at h
      rw [ih h]
      simp [List.filter_cons, keptLine_nil]
    · rw [if_neg hbl]
      by_cases hc : (string_split '\t' l).length ≤ 1
      · rw [if_pos hc]
        simp only [firstGoodCount, if_neg hbl, if_pos hc] at h
        rw [ih h]
        have hk : keptLine k l = false := by
          simp only [keptLine, Bool.and_eq_false_iff, decide_eq_false_iff_not]
          left
          omega
        simp [List.filter_cons, hk]
      · rw [if_neg hc]
        have hneg : ((-1 : Int) < 0) := by omega
        rw [if_pos hneg]
        simp only [firstGoodCount, if_neg hbl, if_neg hc, Option.some.injEq] at h
        have hcast : ((string_split '\t' l).length : Int) - 1 = (k : Int) := by
          omega
        rw [hcast, loadLoop_nonneg k rest]
        have hk : keptLine k l = true := by
          simp only [keptLine, Bool.and_eq_true, decide_eq_true_eq]
          omega
        simp [List.filter_cons, hk]

/-- C3: on a stream whose open failed (`failbit` set, `eofbit` clear, as for
an unopenable file), `getline`'s sentry always fails, `eofbit` is never set,
and the `while (!fp.eof())` loop of `load` never terminates: the program
neither prints a diagnostic for the failed open nor exits with a nonzero
status — `load` has no failure path at all (main.cpp:191-196 performs no
open check). -/
theorem loadStream_unopenable_never_returns :
    ∀ (fuel : Nat) (rest : List (List Char)) (buf : List Char) (nf : Int),
      loadStream fuel ⟨true, false, rest⟩ buf nf = none := by
  intro fuel
  induction fuel with
  | zero => intro rest buf nf; rfl
  | succ fuel ih =>
    intro rest buf nf
    simp only [loadStream, getline]
    simp [ih]

/-- On a successfully opened stream the fueled getline loop terminates and
agrees with `loadLoop` over the file's lines, so the two models of `load`
coincide in the non-failing case. -/
theorem loadStream_opened :
    ∀ (lines : List (List Char)) (fuel : Nat), lines.length + 2 ≤ fuel →
      ∀ (buf : List Char) (nf : Int),
        loadStream fuel ⟨false, false, lines⟩ buf nf = some (loadLoop lines nf) := by
  intro lines
  induction lines with
  | nil =>
    intro fuel hf buf nf
    match fuel, hf with
    | f + 2, _ =>
      simp [loadStream, getline, loadLoop]
  | cons l ls ih =>
    intro fuel hf buf nf
    match fuel, hf with
    | f + 1, hf =>
      have hf' : ls.length + 2 ≤ f := by
        simp only [List.length_cons] at hf; omega
      have hgl : getline ⟨false, false, l :: ls⟩ buf = (⟨false, false, ls⟩, l) := rfl
      simp only [loadStream, hgl, loadLoop]
      rw [if_neg (by simp : ¬ ((⟨false, false, l :: ls⟩ : IStream).eofbit = true))]
      by_cases hbl : l = []
      · rw [if_pos (by simp [hbl]), if_pos hbl]
        exact ih f hf' l nf
      · rw [if_neg (by simp [hbl]), if_neg hbl]
        by_cases hc : (string_split '\t' l).length ≤ 1
        · rw [if_pos hc, if_pos hc]
          exact ih f hf' l nf
        · rw [if_neg hc, if_neg hc]
          by_cases hnf : nf < 0
          · rw [if_pos hnf, if_pos hnf, ih f hf' l _]
            rfl
          · rw [if_neg hnf, if_neg hnf]
            by_cases hne : ((string_split '\t' l).length : Int) - 1 ≠ nf
            · rw [if_pos hne, if_pos hne]
              exact ih f hf' l nf
            · rw [if_neg hne, if_neg hne, ih f hf' l nf]
              rfl

/-- C1: for every pair of token sequences, `slow_edit_distance` returns the
minimum number of single-token insertions, deletions, or substitutions
transforming the first into the second — the exact unweighted Levenshtein
distance (non-negativity is inherent in the `Nat` result). -/
theorem slow_edit_distance_min_edit_sequence {α : Type} [DecidableEq α]
    [Inhabited α] (one two : List α) :
    IsLeast {n : Nat | EditSeq n one two} (slow_edit_distance one two) := by
  constructor
  · simp only [Set.mem_setOf_eq]
    rw [slow_edit_distance_eq_lev]
    exact editSeq_lev one two
  · intro n hn
    simp only [Set.mem_setOf_eq] at hn
    rw [slow_edit_distance_eq_lev]
    exact editSeq_lev_le hn

/-- C7: `slow_edit_distance` equals the plain `(len_a+1)×(len_b+1)` DP
computation without the common-suffix-stripping step — stripping the shared
suffix never changes the returned distance. -/
theorem slow_edit_distance_eq_plain {α : Type} [DecidableEq α] [Inhabited α]
    (one two : List α) :
    slow_edit_distance one two = plain_edit_distance one two := by
  rw [slow_edit_distance_eq_lev, plain_edit_distance_eq_lev]

/-- C2: the nested loops of `run` enumerate exactly the `n*(n-1)/2` unordered
pairs `(i, j)` with `i < j < n`, each exactly once (no duplicates, no
self-pairs), and the per-field distances of a pair are `slow_edit_distance`
applied field-by-field in field order. -/
theorem run_all_pairs_once_fieldwise (n : Nat) (p : Nat × Nat)
    (one two : Line) (h : one.fields.length = two.fields.length) :
    (runPairs n).length = n * (n - 1) / 2 ∧
    (p ∈ runPairs n ↔ p.1 < p.2 ∧ p.2 < n) ∧
    (runPairs n).Nodup ∧
    processEds one two = List.zipWith slow_edit_distance one.fields two.fields :=
  ⟨runPairs_length n, runPairs_mem n p, runPairs_nodup n,
    processEds_zipWith one two h⟩

theorem run_all_pairs_once_fieldwise_w :
    (Line.mk "a".toList [["x".toList]]).fields.length =
        (Line.mk "b".toList [["y".toList]]).fields.length ∧
    ((runPairs 3).length = 3 * (3 - 1) / 2 ∧
      (((1, 2) : Nat × Nat) ∈ runPairs 3 ↔
        ((1, 2) : Nat × Nat).1 < ((1, 2) : Nat × Nat).2 ∧
          ((1, 2) : Nat × Nat).2 < 3) ∧
      (runPairs 3).Nodup ∧
      processEds (Line.mk "a".toList [["x".toList]]) (Line.mk "b".toList [["y".toList]]) =
        List.zipWith slow_edit_distance (Line.mk "a".toList [["x".toList]]).fields
          (Line.mk "b".toList [["y".toList]]).fields) :=
  ⟨rfl, run_all_pairs_once_fieldwise 3 (1, 2)
    (Line.mk "a".toList [["x".toList]]) (Line.mk "b".toList [["y".toList]]) rfl⟩

/-- C4 (counterexample): on the two-record input
`a TAB hello world` / `b TAB hallo world` the program does NOT write the line
`a TAB b TAB 1 TAB 0` claimed by the spec: each record has a single
tab-delimited field, so only one distance column is emitted. -/
theorem run_two_record_example_ne :
    run ["a\thello world".toList, "b\thallo world".toList] ≠
      "a\tb\t1\t0\n".toList := by
  decide

/-- C4 (amended): on the two-record input `a TAB hello world` /
`b TAB hallo world` the program writes exactly one output line,
`a TAB b TAB 1`: the records have one field each, `["hello", "world"]` vs
`["hallo", "world"]`, with token-level edit distance 1. -/
theorem run_two_record_example :
    run ["a\thello world".toList, "b\thallo world".toList] =
      "a\tb\t1\n".toList := by
  decide

/-- C5: a loaded store owning at most one record yields zero pairs, zero
output bytes, and a progress total of 0 (including the `size_t` wrap-around
of `n * (n-1) / 2` at `n = 0`). -/
theorem run_small_store_nothing (input : List (List Char))
    (h : (load input).length ≤ 1) :
    runPairs (load input).length = [] ∧ run input = [] ∧
      progTotal (load input).length = 0 := by
  have hrp : runPairs (load input).length = [] := by
    rcases Nat.le_one_iff_eq_zero_or_eq_one.mp h with h0 | h0 <;> rw [h0] <;> rfl
  refine ⟨hrp, ?_, ?_⟩
  · show (((runPairs (load input).length).map fun p =>
        process ((load input).getD p.1 default)
          ((load input).getD p.2 default)).flatten) = []
    rw [hrp]
    rfl
  · rcases Nat.le_one_iff_eq_zero_or_eq_one.mp h with h0 | h0 <;> rw [h0] <;> rfl

theorem run_small_store_nothing_w :
    (load ["a\tx".toList]).length ≤ 1 ∧
    (runPairs (load ["a\tx".toList]).length = [] ∧ run ["a\tx".toList] = [] ∧
      progTotal (load ["a\tx".toList]).length = 0) :=
  ⟨by decide, run_small_store_nothing ["a\tx".toList] (by decide)⟩

/-- C6 (counterexample): when `--help` is the only argument it sits in the
first argument position, yet the program exits with `EXIT_FAILURE` (status
1), because the `argc < 3` usage check (main.cpp:272) runs before the
`--help` check (main.cpp:276). -/
theorem mainSim_help_alone_fails : (mainSim ["prog", "--help"]).1 ≠ 0 := by
  decide

/-- C6 (amended): with at least two arguments after the program name,
`--help` in either of the first two argument positions prints usage and
exits 0; with fewer arguments — `--help` alone included — usage is printed
but the exit status is `EXIT_FAILURE`. -/
theorem mainSim_help_exit_zero (argv : List String) (h3 : 3 ≤ argv.length)
    (hh : argv.getD 1 "" = "--help" ∨ argv.getD 2 "" = "--help") :
    mainSim argv = (0, true) := by
  unfold mainSim
  rw [if_neg (by omega), if_pos hh]

theorem mainSim_help_exit_zero_w :
    3 ≤ (["p", "--help", "o"] : List String).length ∧
    ((["p", "--help", "o"] : List String).getD 1 "" = "--help" ∨
      (["p", "--help", "o"] : List String).getD 2 "" = "--help") ∧
    mainSim ["p", "--help", "o"] = (0, true) :=
  ⟨by decide, Or.inl (by decide),
    mainSim_help_exit_zero ["p", "--help", "o"] (by decide) (Or.inl (by decide))⟩

/-- C8: every record placed in the store by `load` has exactly the field
count fixed by the first line with at least two tab-chunks; lines with at
most one chunk and later lines with a different chunk count are dropped
while loading continues — the store is exactly the kept lines, parsed, in
order. -/
theorem load_uniform_field_count (input : List (List Char)) (k : Nat)
    (h : firstGoodCount input = some k) :
    load input =
      (input.filter (keptLine k)).map (fun l => parseLine (string_split '\t' l)) ∧
    ∀ rec ∈ load input, rec.fields.length = k := by
  have he := load_eq_filter_map input k h
  refine ⟨he, ?_⟩
  intro rec hrec
  rw [he] at hrec
  simp only [List.mem_map, List.mem_filter] at hrec
  obtain ⟨l, ⟨_, hkept⟩, rfl⟩ := hrec
  simp only [keptLine, Bool.and_eq_true, decide_eq_true_eq] at hkept
  simp only [parseLine, List.length_map, List.length_drop]
  omega

theorem load_uniform_field_count_w :
    firstGoodCount ["a\tx y".toList, "".toList, "bad".toList,
        "b\tp\tq".toList, "c\tz".toList] = some 1 ∧
    (load ["a\tx y".toList, "".toList, "bad".toList,
        "b\tp\tq".toList, "c\tz".toList] =
      ((["a\tx y".toList, "".toList, "bad".toList,
          "b\tp\tq".toList, "c\tz".toList].filter (keptLine 1)).map
        (fun l => parseLine (string_split '\t' l))) ∧
    ∀ rec ∈ load ["a\tx y".toList, "".toList, "bad".toList,
        "b\tp\tq".toList, "c\tz".toList], rec.fields.length = 1) :=
  ⟨by decide, load_uniform_field_count _ 1 (by decide)⟩

/-- C9: `string_split` emits all separator-delimited segments except that an
empty segment after the final separator is omitted: splitting the empty
string yields `[]`, `"a "` on space yields `["a"]`, while interior adjacent
separators still produce an empty token (`"a  b"` yields `["a", "", "b"]`). -/
theorem string_split_no_trailing_empty (c : Char) (s : List Char) :
    (string_split c s =
      if (allSegments c s).getLast? = some [] then (allSegments c s).dropLast
      else allSegments c s) ∧
    string_split c [] = [] ∧
    string_split ' ' "a ".toList = ["a".toList] ∧
    string_split ' ' "a  b".toList = ["a".toList, [], "b".toList] :=
  ⟨string_split_eq_dropTrailingEmpty c s, rfl, by decide, by decide⟩
